import Mathlib

/-!
Shallow embedding of `src/d3.windrose.js`.

A JavaScript object is modelled as an association list in insertion order
(`for ... in` iterates keys in that order, and property lookup finds the
unique entry for a key).  JavaScript numbers are modelled as `ℚ`; a value
that is `undefined` or `NaN` is modelled as `none` in `Option ℚ`, with
arithmetic propagating `none` the way `NaN` propagates.  The d3 drawing
calls are modelled as emission of geometric primitives, in call order;
colors, strokes and tooltip strings are presentation data carried by the
renderer and are not part of any geometric statement, so they are not
recorded on the primitives.  Angles are recorded in degrees as supplied to
`windrose.rad` (the conversion to radians is a strictly monotone bijection
applied at the d3 boundary).
-/

namespace windrose

/-- A JavaScript numeric value that may be `undefined`/`NaN` (`none`). -/
abbrev JsNum := Option ℚ

/-- JavaScript `+` on numbers: `undefined`/`NaN` propagates. -/
def jsAdd : JsNum → JsNum → JsNum
  | some a, some b => some (a + b)
  | _, _ => none

/-- JavaScript `-` on numbers: `undefined`/`NaN` propagates. -/
def jsSub : JsNum → JsNum → JsNum
  | some a, some b => some (a - b)
  | _, _ => none

/-- JavaScript `/ 2` on a number: `undefined`/`NaN` propagates. -/
def jsHalf : JsNum → JsNum
  | some a => some (a / 2)
  | none => none

/-- A value stored under a top-level key of a wind-rose data object:
either a scalar (the `"calm"` frequency, or a mean speed) or a
speed-bin object (bin label to frequency, in insertion order). -/
inductive Val where
  | num : ℚ → Val
  | bins : List (String × ℚ) → Val
deriving DecidableEq, Repr

/-- A wind-rose data object: keys with values, in insertion order. -/
abbrev Data := List (String × Val)

/-- JavaScript property lookup `data[key]` on a data object. -/
def lookupData : Data → String → Option Val
  | [], _ => none
  | (k, v) :: rest, key => if k = key then some v else lookupData rest key

/-- Reading a data value as a number: `data["calm"]` yields `undefined`
when the key is missing; a bin object used as a number is not numeric. -/
def jsNumOf : Option Val → JsNum
  | some (.num q) => some q
  | _ => none

/-- The bin entries iterated by `for (var bin in data[dir])`: a scalar has
no enumerable properties, so it yields no iterations. -/
def valBins : Val → List (String × ℚ)
  | .num _ => []
  | .bins bs => bs

/-- Reading a value as a number where the source adds it to a length
(`calm = data[dir]`); data objects store a scalar under `"calm"`, and the
theorems' hypotheses restrict to that shape. -/
def valAsNum : Val → ℚ
  | .num q => q
  | .bins _ => 0

/-- The accumulator of `len = 0; for (var bin in ...) len += data[dir][bin]`. -/
def binSumLoop : List (String × ℚ) → ℚ → ℚ
  | [], len => len
  | (_, f) :: rest, len => binSumLoop rest (len + f)

/-- The summed bin frequencies of one direction. -/
def binSum (bs : List (String × ℚ)) : ℚ := binSumLoop bs 0

/-- Source constant `windrose.degreesInCircle`. -/
def degreesInCircle : ℚ := 360

/-- Source `windrose.getDirections`: the keys of the data object other than
`"calm"`, in iteration order. -/
def getDirections : Data → List String
  | [] => []
  | (key, _) :: rest =>
    if key = "calm" then getDirections rest else key :: getDirections rest

/-- JavaScript object property assignment `angs[key] = v`: updates the
entry in place when the key exists, otherwise appends it. -/
def objSet : List (String × ℚ × ℚ) → String → ℚ × ℚ → List (String × ℚ × ℚ)
  | [], key, v => [(key, v)]
  | (k, w) :: rest, key, v =>
    if k = key then (k, v) :: rest else (k, w) :: objSet rest key v

/-- The loop of `windrose.getAngles`: `factor` starts at `-0.5` and is
pre-incremented when the end angle is computed. -/
def getAnglesLoop (slices : ℚ) : List String → ℚ → List (String × ℚ × ℚ) → List (String × ℚ × ℚ)
  | [], _, angs => angs
  | d :: rest, factor, angs =>
    getAnglesLoop slices rest (factor + 1)
      (objSet angs d (degreesInCircle / slices * factor, degreesInCircle / slices * (factor + 1)))

/-- Source `windrose.getAngles`: start and end angles (degrees) per direction. -/
def getAngles (directions : List String) : List (String × ℚ × ℚ) :=
  getAnglesLoop (directions.length : ℚ) directions (-(1/2)) []

/-- Property lookup `angles[dir]` on the angles object. -/
def lookupAngles : List (String × ℚ × ℚ) → String → Option (ℚ × ℚ)
  | [], _ => none
  | (k, sp) :: rest, key => if k = key then some sp else lookupAngles rest key

/-- Lookup in a static configuration table of numbers. -/
def lookupNum : List (String × ℚ) → String → JsNum
  | [], _ => none
  | (k, q) :: rest, key => if k = key then some q else lookupNum rest key

/-- The loop of `windrose.maxLength`: state is the running maximum, the
`calm` variable (set when the `"calm"` key is reached) and the `len`
variable (reset and re-summed at each non-calm key, left unchanged at the
`"calm"` key); `gt(len + calm)` runs at every iteration. -/
def maxLengthLoop : Data → ℚ → ℚ → ℚ → ℚ
  | [], maxv, _, _ => maxv
  | (dir, v) :: rest, maxv, calm, len =>
    let calm' := if dir = "calm" then valAsNum v else calm
    let len' := if dir = "calm" then len else binSum (valBins v)
    let maxv' := if len' + calm' > maxv then len' + calm' else maxv
    maxLengthLoop rest maxv' calm' len'

/-- Source `windrose.maxLength`: maximum length of a directional arm. -/
def maxLength (data : Data) : ℚ := maxLengthLoop data 0 0 0

/-- The loop of `windrose.directionWithMinimumLength`; same state as
`maxLengthLoop` plus the direction of the running minimum.  In the source
`calm` is an implicit global (no `var`), so its value on entry is a
parameter threaded from `directionWithMinimumLength`. -/
def directionWithMinimumLengthLoop : Data → ℚ → String → ℚ → ℚ → String
  | [], _, mindir, _, _ => mindir
  | (dir, v) :: rest, minv, mindir, calm, len =>
    let calm' := if dir = "calm" then valAsNum v else calm
    let len' := if dir = "calm" then len else binSum (valBins v)
    if len' + calm' < minv then
      directionWithMinimumLengthLoop rest (len' + calm') dir calm' len'
    else
      directionWithMinimumLengthLoop rest minv mindir calm' len'

/-- Source `windrose.directionWithMinimumLength`; `calm0` is the value of the
implicit global `calm` on entry. -/
def directionWithMinimumLength (data : Data) (calm0 : ℚ) : String :=
  directionWithMinimumLengthLoop data 0 "" calm0 0

/-- Source `windrose.domain`: `Math.ceil(maxLength(data) / 10) * 10`. -/
def domain (data : Data) : ℚ := (Int.ceil (maxLength data / 10) : ℚ) * 10

/-- A drawable primitive, carrying its geometry in emission order. -/
inductive Prim where
  | circle (cx cy : ℚ) (r : JsNum)
  | text (x y : ℚ) (rotation : ℚ)
  | arc (inner outer startDeg endDeg : JsNum) (cx cy : ℚ)
  | rect (x y width height : JsNum) (rotation : JsNum) (cx cy : ℚ)
deriving DecidableEq, Repr

/-- Values emitted by `for (var v = start; v >= low; v -= 10)`.  The fuel
strictly bounds the number of iterations (each one decreases `v` by 10). -/
def countdownLoop (low : ℚ) : Nat → ℚ → List ℚ
  | 0, _ => []
  | fuel + 1, x => if x ≥ low then x :: countdownLoop low fuel (x - 10) else []

/-- The values taken by a `for (v = start; v >= low; v -= 10)` loop. -/
def countdown (low start : ℚ) : List ℚ :=
  countdownLoop low ((Int.ceil start).toNat + 1) start

/-- The circle-and-label pairs of `windrose.drawFrequencyCircles`. -/
def frequencyCirclePrims (center : ℚ × ℚ) : List ℚ → List Prim
  | [] => []
  | freq :: rest =>
    Prim.circle center.1 center.2 (some freq)
      :: Prim.text center.1 (center.2 + freq) (-(45/2))
      :: frequencyCirclePrims center rest

/-- Source `windrose.drawFrequencyCircles`: radial axes at `domain, domain-10, ...`
while `>= 5`, each with a rotated percentage label. -/
def drawFrequencyCircles (domainValue : ℚ) (center : ℚ × ℚ) : List Prim :=
  frequencyCirclePrims center (countdown 5 domainValue)

/-- Source `windrose.drawChunk`: one arc of a directional arm, and the new offset
`offset + freq` that the source returns. -/
def drawChunk (dir bin : String) (freq : ℚ) (offset : JsNum) (center : ℚ × ℚ)
    (angles : List (String × ℚ × ℚ)) : Prim × JsNum :=
  let _ := bin
  (Prim.arc offset (jsAdd offset (some freq))
    ((lookupAngles angles dir).map (fun sp => sp.1))
    ((lookupAngles angles dir).map (fun sp => sp.2))
    center.1 center.2,
   jsAdd offset (some freq))

/-- The inner loop of `windrose.drawRose`: one chunk per speed bin, the
offset threaded through `drawChunk`. -/
def drawChunks (dir : String) : List (String × ℚ) → JsNum → (ℚ × ℚ) → List (String × ℚ × ℚ) → List Prim
  | [], _, _, _ => []
  | (bin, freq) :: rest, offset, center, angles =>
    (drawChunk dir bin freq offset center angles).1
      :: drawChunks dir rest (drawChunk dir bin freq offset center angles).2 center angles

/-- The outer loop of `windrose.drawRose`: every non-`"calm"` key is an
arm whose offset restarts at `data["calm"]`. -/
def drawRoseArms (calm : JsNum) (center : ℚ × ℚ) (angles : List (String × ℚ × ℚ)) : Data → List Prim
  | [] => []
  | (dir, v) :: rest =>
    (if dir = "calm" then [] else drawChunks dir (valBins v) calm center angles)
      ++ drawRoseArms calm center angles rest

/-- Source `windrose.drawRose`: frequency circles, then the stacked arcs of every
directional arm. -/
def drawRose (data : Data) (center : ℚ × ℚ) : List Prim :=
  drawFrequencyCircles (domain data) center
    ++ drawRoseArms (jsNumOf (lookupData data "calm")) center
        (getAngles (getDirections data)) data

namespace bomStyle

/-- Source `windrose.bomStyle.config`: the static per-bin telescope widths. -/
def config : List (String × ℚ) := [("0-10", 4), ("10-20", 8), ("20-30", 12), (">30", 16)]

/-- Width lookup `windrose.bomStyle.config[key]["width"]`. -/
def configWidth (key : String) : JsNum := lookupNum config key

/-- The static `rotations` table of `windrose.bomStyle.drawRose`. -/
def rotations : List (String × ℚ) :=
  [("N", 180), ("NE", -90 - 45), ("E", -90), ("SE", -45),
   ("S", 0), ("SW", 45), ("W", 90), ("NW", 90 + 45)]

/-- Rotation lookup `rotations[dir]`. -/
def rotationOf (dir : String) : JsNum := lookupNum rotations dir

/-- The circles of `windrose.bomStyle.drawRadiiCircles`. -/
def radiiCirclePrims (center : ℚ × ℚ) : List ℚ → List Prim
  | [] => []
  | radius :: rest =>
    Prim.circle center.1 center.2 (some radius) :: radiiCirclePrims center rest

/-- Source `windrose.bomStyle.drawRadiiCircles`: circles at `domain, domain-10, ...`
while `>= 10`. -/
def drawRadiiCircles (domainValue : ℚ) (center : ℚ × ℚ) : List Prim :=
  radiiCirclePrims center (countdown 10 domainValue)

/-- Source `windrose.bomStyle.drawCalmCircle`. -/
def drawCalmCircle (calmPercent : JsNum) (center : ℚ × ℚ) : List Prim :=
  [Prim.circle center.1 center.2 calmPercent]

/-- The inner loop of `windrose.bomStyle.drawRose`: one rectangle per bin,
`currentOffset` advancing by the bin frequency. -/
def drawRects (dir : String) : List (String × ℚ) → JsNum → (ℚ × ℚ) → List Prim
  | [], _, _ => []
  | (key, freq) :: rest, currentOffset, center =>
    Prim.rect (jsSub (some center.1) (jsHalf (configWidth key))) currentOffset
        (configWidth key) (some freq) (rotationOf dir) center.1 center.2
      :: drawRects dir rest (jsAdd currentOffset (some freq)) center

/-- The outer loop of `windrose.bomStyle.drawRose`: `currentOffset`
restarts at the shared `offset` for every non-`"calm"` key. -/
def drawBomArms (offset : JsNum) (center : ℚ × ℚ) : Data → List Prim
  | [] => []
  | (dir, v) :: rest =>
    (if dir = "calm" then [] else drawRects dir (valBins v) offset center)
      ++ drawBomArms offset center rest

/-- Source `windrose.bomStyle.drawRose`: radii circles, the calm circle, then the
telescope rectangles; `offset = center.y + data["calm"]` is computed once. -/
def drawRose (data : Data) (center : ℚ × ℚ) : List Prim :=
  drawRadiiCircles (domain data) center
    ++ drawCalmCircle (jsNumOf (lookupData data "calm")) center
    ++ drawBomArms (jsAdd (some center.2) (jsNumOf (lookupData data "calm"))) center data

end bomStyle

namespace meanDirectional

/-- The circles of `windrose.meanDirectional.drawSpeedCircles`. -/
def speedCirclePrims (center : ℚ × ℚ) : List ℚ → List Prim
  | [] => []
  | speed :: rest =>
    Prim.circle center.1 center.2 (some speed) :: speedCirclePrims center rest

/-- Source `windrose.meanDirectional.drawSpeedCircles`:
`for (var speed = 80; speed >= 5; speed -= 10)`. -/
def drawSpeedCircles (center : ℚ × ℚ) : List Prim :=
  speedCirclePrims center (countdown 5 80)

/-- Source `windrose.meanDirectional.drawSpeedSlice`: a full sector from radius 0
out to the direction's speed, over the direction's angle span. -/
def drawSpeedSlice (center : ℚ × ℚ) (dir : String) (speed : JsNum)
    (angles : List (String × ℚ × ℚ)) : Prim :=
  Prim.arc (some 0) speed
    ((lookupAngles angles dir).map (fun sp => sp.1))
    ((lookupAngles angles dir).map (fun sp => sp.2))
    center.1 center.2

/-- The loop of `windrose.meanDirectional.drawRose`: one slice per key. -/
def drawSlices (center : ℚ × ℚ) (angles : List (String × ℚ × ℚ)) : Data → List Prim
  | [] => []
  | (dir, v) :: rest =>
    drawSpeedSlice center dir (jsNumOf (some v)) angles :: drawSlices center angles rest

/-- Source `windrose.meanDirectional.drawRose`: fixed speed circles, then one
speed slice per direction. -/
def drawRose (data : Data) (center : ℚ × ℚ) : List Prim :=
  drawSpeedCircles center ++ drawSlices center (getAngles (getDirections data)) data

end meanDirectional

/-- Whether a primitive is an arc sector. -/
def isArc : Prim → Bool
  | .arc .. => true
  | _ => false

/-- Whether a primitive is a rectangle. -/
def isRect : Prim → Bool
  | .rect .. => true
  | _ => false

/-- The arc sectors among an emission, in emission order. -/
def arcsOf (ps : List Prim) : List Prim := ps.filter isArc

/-- The rectangles among an emission, in emission order. -/
def rectsOf (ps : List Prim) : List Prim := ps.filter isRect

end windrose

open windrose

/-- The `"calm"` scalar as the spec reads it: the value of the `"calm"`
key, taken as 0 if absent. -/
def specCalm (data : Data) : ℚ :=
  match lookupData data "calm" with
  | some v => valAsNum v
  | none => 0

/-- The per-direction total magnitudes as the spec states them: for each
non-`"calm"` key, the sum of its bin frequencies plus the calm scalar. -/
def specArmTotals (data : Data) : List ℚ :=
  (data.filter (fun p => p.1 ≠ "calm")).map (fun p => binSum (valBins p.2) + specCalm data)

/-- The maximum of the spec's per-direction totals (0 for no directions). -/
def specMax (data : Data) : ℚ := (specArmTotals data).foldr max 0

/-- The domain as the spec states it: `ceil(max/10)*10` over `specMax`. -/
def specDomain (data : Data) : ℚ := (Int.ceil (specMax data / 10) : ℚ) * 10

/-- The frequency-rose arcs of one direction as the spec describes them:
inner radius = offset, outer radius = offset + bin value, the offset
starting at the calm value and advancing by each bin value in bin order. -/
def specStackedArcs (offset : ℚ) (dir : String) (angles : List (String × ℚ × ℚ))
    (center : ℚ × ℚ) : List (String × ℚ) → List Prim
  | [] => []
  | (_, freq) :: rest =>
    Prim.arc (some offset) (some (offset + freq))
        ((lookupAngles angles dir).map (fun sp => sp.1))
        ((lookupAngles angles dir).map (fun sp => sp.2))
        center.1 center.2
      :: specStackedArcs (offset + freq) dir angles center rest

/-- The frequency-rose arcs of a whole dataset as the spec describes them:
for each non-`"calm"` key, its stacked arcs starting at the calm value. -/
def specFreqArcs (calm : ℚ) (angles : List (String × ℚ × ℚ)) (center : ℚ × ℚ) : Data → List Prim
  | [] => []
  | (dir, v) :: rest =>
    (if dir = "calm" then [] else specStackedArcs calm dir angles center (valBins v))
      ++ specFreqArcs calm angles center rest

/-- The telescope rectangles of one direction as the spec describes them:
x = center.x - width/2, y = the running offset starting at
center.y + calm, width from the static config, height = bin frequency. -/
def specTelescopeRects (y0 : ℚ) (dir : String) (center : ℚ × ℚ) : List (String × ℚ) → List Prim
  | [] => []
  | (key, freq) :: rest =>
    Prim.rect (jsSub (some center.1) (jsHalf (bomStyle.configWidth key))) (some y0)
        (bomStyle.configWidth key) (some freq) (bomStyle.rotationOf dir) center.1 center.2
      :: specTelescopeRects (y0 + freq) dir center rest

/-- The telescope rectangles of a whole dataset as the spec describes
them: each non-`"calm"` key restarts at offset `center.y + calm`. -/
def specTelescopeArms (y0 : ℚ) (center : ℚ × ℚ) : Data → List Prim
  | [] => []
  | (dir, v) :: rest =>
    (if dir = "calm" then [] else specTelescopeRects y0 dir center (valBins v))
      ++ specTelescopeArms y0 center rest

/-- The angles list produced by an overwrite-free run of `getAnglesLoop`
(fresh keys only append): entry `j` of the remaining directions gets the
span for factor value `factor + j`. -/
def idealAngles (slices : ℚ) : List String → ℚ → List (String × ℚ × ℚ)
  | [], _ => []
  | d :: rest, factor =>
    (d, degreesInCircle / slices * factor, degreesInCircle / slices * (factor + 1))
      :: idealAngles slices rest (factor + 1)

/-- Bin frequencies of a dataset are all non-negative, and every `"calm"`
value is a scalar. -/
def dataNonneg : Data → Bool
  | [] => true
  | (_, .num q) :: rest => decide (0 ≤ q) && dataNonneg rest
  | (_, .bins bs) :: rest => bs.all (fun b => decide (0 ≤ b.2)) && dataNonneg rest

/-- The frequency-rose sample dataset of `windrose.drawRose` (the default
argument), used as a concrete witness input. -/
def sampleFreqData : Data :=
  [("calm", .num 8),
   ("N", .bins [("0-10", 3), ("10-20", 12), ("20-30", 0), (">30", 0)]),
   ("NNE", .bins [("0-10", 4), ("10-20", 9), ("20-30", 2), (">30", 0)]),
   ("NE", .bins [("0-10", 0), ("10-20", 20), ("20-30", 0), (">30", 0)]),
   ("S", .bins [("0-10", 20), ("10-20", 30), ("20-30", 10), (">30", 10)])]

/-- A dataset whose `"calm"` key comes after its direction keys. -/
def calmLastData : Data :=
  [("N", .bins [("0-10", 15)]), ("S", .bins [("0-10", 5)]), ("calm", .num 8)]

/-- A dataset with no `"calm"` key. -/
def noCalmData : Data := [("N", .bins [("0-10", 3), ("10-20", 12)])]

/-- A dataset holding a negative frequency. -/
def negativeFreqData : Data := [("calm", .num 0), ("N", .bins [("0-10", -5)])]

/-- The telescope sample direction with calm 8 and four bins of 10. -/
def sampleBomData : Data :=
  [("calm", .num 8),
   ("N", .bins [("0-10", 10), ("10-20", 10), ("20-30", 10), (">30", 10)])]

/-- The mean-directional sample dataset (the default argument). -/
def sampleMeanData : Data :=
  [("N", .num 10), ("NE", .num 20), ("E", .num 30), ("SE", .num 40),
   ("S", .num 50), ("SW", .num 60), ("W", .num 70), ("NW", .num 80)]

lemma binSumLoop_add (bs : List (String × ℚ)) : ∀ l : ℚ, binSumLoop bs l = l + binSum bs := by
  induction bs with
  | nil => intro l; rw [binSum]; simp [binSumLoop]
  | cons b rest ih =>
    intro l
    obtain ⟨k, f⟩ := b
    rw [binSum, binSumLoop, binSumLoop, ih, ih (0 + f)]
    ring

lemma binSum_cons (k : String) (f : ℚ) (rest : List (String × ℚ)) :
    binSum ((k, f) :: rest) = f + binSum rest := by
  rw [binSum, binSumLoop, binSumLoop_add]
  ring

lemma binSum_nonneg (bs : List (String × ℚ)) (h : ∀ b ∈ bs, 0 ≤ b.2) : 0 ≤ binSum bs := by
  induction bs with
  | nil => rw [binSum]; simp [binSumLoop]
  | cons b rest ih =>
    obtain ⟨k, f⟩ := b
    have hf : 0 ≤ f := h (k, f) (List.mem_cons_self _ _)
    have hrest : 0 ≤ binSum rest := ih fun b hb => h b (List.mem_cons_of_mem _ hb)
    rw [binSum_cons]
    linarith

lemma dataNonneg_tail {p : String × Val} {rest : Data} (h : dataNonneg (p :: rest) = true) :
    dataNonneg rest = true := by
  obtain ⟨k, v⟩ := p
  cases v <;> simp [dataNonneg, Bool.and_eq_true] at h <;> exact h.2

lemma dataNonneg_valAsNum {p : String × Val} {rest : Data} (h : dataNonneg (p :: rest) = true) :
    0 ≤ valAsNum p.2 := by
  obtain ⟨k, v⟩ := p
  cases v with
  | num q =>
    simp only [dataNonneg, Bool.and_eq_true, decide_eq_true_eq] at h
    simpa [valAsNum] using h.1
  | bins bs => simp [valAsNum]

lemma dataNonneg_binSum {p : String × Val} {rest : Data} (h : dataNonneg (p :: rest) = true) :
    0 ≤ binSum (valBins p.2) := by
  obtain ⟨k, v⟩ := p
  cases v with
  | num q => simp [valBins, binSum, binSumLoop]
  | bins bs =>
    simp only [dataNonneg, Bool.and_eq_true, List.all_eq_true, decide_eq_true_eq] at h
    exact binSum_nonneg bs fun b hb => h.1 b hb

lemma dwmlLoop_empty (data : Data) : ∀ (calm len : ℚ), dataNonneg data = true → 0 ≤ calm →
    0 ≤ len → directionWithMinimumLengthLoop data 0 "" calm len = "" := by
  induction data with
  | nil => intro calm len _ _ _; rfl
  | cons p rest ih =>
    intro calm len hd hc hl
    obtain ⟨dir, v⟩ := p
    have hcalm : 0 ≤ (if dir = "calm" then valAsNum v else calm) := by
      split
    
      · exact dataNonneg_valAsNum hd
      · exact hc
    have hlen : 0 ≤ (if dir = "calm" then len else binSum (valBins v)) := by
      split
    
      · exact hl
      · exact dataNonneg_binSum hd
    simp only [directionWithMinimumLengthLoop]
    rw [if_neg (not_lt.mpr (add_nonneg hlen hcalm))]
    exact ih _ _ (dataNonneg_tail hd) hcalm hlen

/-- C10: on a dataset whose numeric values are all non-negative (so every
arm total `binSum + calm` is non-negative) and whose implicit global
`calm` starts non-negative, `directionWithMinimumLength` returns `""`:
the running minimum starts at 0 and only strictly smaller values replace
it, so no direction is ever selected. -/
theorem C10_min_direction_nonneg (data : Data) (calm0 : ℚ) (hc : 0 ≤ calm0)
    (hd : dataNonneg data = true) : directionWithMinimumLength data calm0 = "" :=
  dwmlLoop_empty data calm0 0 hd hc le_rfl

theorem C10_min_direction_nonneg_witness :
    0 ≤ (0 : ℚ) ∧ dataNonneg sampleFreqData = true ∧
      directionWithMinimumLength sampleFreqData 0 = "" :=
  ⟨by norm_num, by decide, C10_min_direction_nonneg sampleFreqData 0 (by norm_num) (by decide)⟩

/-- C3 (counterexample): `getAngles` on zero directions returns the empty
mapping, an ordinary value: the call is not rejected with an error. -/
theorem C3_empty_directions_counterexample :
    getAngles [] = ([] : List (String × ℚ × ℚ)) := rfl

/-- C3 (amended): when zero directions are supplied, `getAngles` silently
yields a mapping with no entries; the loop body never executes, so the
division `360/0` is never evaluated and nothing is rejected. -/
theorem C3_empty_directions_silent : (getAngles []).length = 0 := rfl

lemma countdown_eval_5_80 : countdown 5 80 = [80, 70, 60, 50, 40, 30, 20, 10] := by
  simp only [countdown, countdownLoop]
  norm_num [Int.ceil_eq_iff]

/-- C7 (counterexample): the mean-directional reference circles stop at
radius 10: the loop `for (speed = 80; speed >= 5; speed -= 10)` steps down
by 10 from 80, and `10 - 10 = 0 < 5`, so no circle of radius 5 is ever
emitted. -/
theorem C7_speed_circles_counterexample :
    countdown 5 80 = [80, 70, 60, 50, 40, 30, 20, 10] ∧
      windrose.Prim.circle 100 80 (some 5) ∉ meanDirectional.drawSpeedCircles (100, 80) := by
  refine ⟨countdown_eval_5_80, ?_⟩
  simp only [meanDirectional.drawSpeedCircles]
  rw [countdown_eval_5_80]
  norm_num [meanDirectional.speedCirclePrims]

/-- C7 (amended): the mean-directional rose always emits exactly the fixed
reference circles of radii 80, 70, ..., 10 (stepping down by 10, the last
being 10, not 5), independently of any data: `drawSpeedCircles` does not
read the dataset at all. -/
theorem C7_speed_circles_fixed (center : ℚ × ℚ) :
    meanDirectional.drawSpeedCircles center =
      [Prim.circle center.1 center.2 (some 80), Prim.circle center.1 center.2 (some 70),
       Prim.circle center.1 center.2 (some 60), Prim.circle center.1 center.2 (some 50),
       Prim.circle center.1 center.2 (some 40), Prim.circle center.1 center.2 (some 30),
       Prim.circle center.1 center.2 (some 20), Prim.circle center.1 center.2 (some 10)] := by
  rw [meanDirectional.drawSpeedCircles, countdown_eval_5_80]
  rfl

/-- C9 (counterexample): a dataset with a negative frequency is rendered
without any rejection: the render call emits a primitive computed from the
invalid value (an arc with outer radius -5 below its inner radius 0), so
primitives are emitted and no `InvalidInput` error occurs. -/
theorem C9_negative_freq_counterexample :
    drawRose negativeFreqData (100, 80) =
      [Prim.arc (some 0) (some (-5)) (some (-180)) (some 180) 100 80] := by
  simp only [negativeFreqData, drawRose, drawFrequencyCircles, frequencyCirclePrims, countdown,
    countdownLoop, domain, maxLength, maxLengthLoop, binSum, binSumLoop, valBins, valAsNum,
    lookupData, jsNumOf, drawRoseArms, drawChunks, drawChunk, jsAdd, getAngles, getAnglesLoop,
    getDirections, objSet, lookupAngles, degreesInCircle, String.reduceEq, ite_true, ite_false,
    if_true, if_false]
  norm_num [Int.ceil_eq_iff, countdownLoop, frequencyCirclePrims]

/-- C9 (amended): render computations do not validate frequencies: a
negative frequency propagates silently into the emitted geometry, and the
emission is incremental rather than all-or-nothing, so the render call
still emits primitives (here an arc whose outer radius -5 lies below its
inner radius 0). -/
theorem C9_negative_freq_emitted :
    Prim.arc (some 0) (some (-5)) (some (-180)) (some 180) 100 80
      ∈ drawRose negativeFreqData (100, 80) ∧ drawRose negativeFreqData (100, 80) ≠ [] := by
  have h : drawRose negativeFreqData (100, 80) =
      [Prim.arc (some 0) (some (-5)) (some (-180)) (some 180) 100 80] := by
    simp only [negativeFreqData, drawRose, drawFrequencyCircles, frequencyCirclePrims, countdown,
      countdownLoop, domain, maxLength, maxLengthLoop, binSum, binSumLoop, valBins, valAsNum,
      lookupData, jsNumOf, drawRoseArms, drawChunks, drawChunk, jsAdd, getAngles, getAnglesLoop,
      getDirections, objSet, lookupAngles, degreesInCircle, String.reduceEq, ite_true, ite_false,
      if_true, if_false]
    norm_num [Int.ceil_eq_iff, countdownLoop, frequencyCirclePrims]
  rw [h]
  exact ⟨List.mem_singleton_self _, by simp⟩

lemma filter_isArc_freqCircles (center : ℚ × ℚ) : ∀ rs : List ℚ,
    (frequencyCirclePrims center rs).filter isArc = [] := by
  intro rs
  induction rs with
  | nil => rfl
  | cons r rest ih => simp [frequencyCirclePrims, isArc, List.filter_cons, ih]

lemma arcsOf_drawRose (data : Data) (center : ℚ × ℚ) :
    arcsOf (drawRose data center) =
      List.filter isArc (drawRoseArms (jsNumOf (lookupData data "calm")) center
        (getAngles (getDirections data)) data) := by
  rw [drawRose, arcsOf, List.filter_append, drawFrequencyCircles, filter_isArc_freqCircles,
    List.nil_append]

lemma maxLengthLoop_append_calm0 (data : Data) : ∀ (m len : ℚ),
    (∀ p ∈ data, p.1 ≠ "calm") → len ≤ m →
    maxLengthLoop (data ++ [("calm", Val.num 0)]) m 0 len = maxLengthLoop data m 0 len := by
  induction data with
  | nil =>
    intro m len _ hlm
    simp only [List.nil_append, maxLengthLoop, valAsNum, ite_true, if_true]
    rw [if_neg]
    simp only [not_lt]
    linarith
  | cons p rest ih =>
    intro m len hnc hlm
    obtain ⟨dir, v⟩ := p
    have hdir : dir ≠ "calm" := hnc (dir, v) (List.mem_cons_self _ _)
    simp only [List.cons_append, maxLengthLoop, if_neg hdir]
    apply ih
    · exact fun q hq => hnc q (List.mem_cons_of_mem _ hq)
    · rcases le_or_lt (binSum (valBins v) + 0) m with h | h
      · rw [if_neg (not_lt.mpr h)]; linarith
      · rw [if_pos h]; linarith

/-- C4 (counterexample): on a dataset lacking `"calm"`, the frequency-rose
draw initializes the radial offset to `data["calm"]`, which is
`undefined`, so the emitted arcs carry `NaN` radii; on the same dataset
extended with `"calm": 0` the arcs have the numeric radii 0/3 and 3/15 —
the two emissions differ, so the draw does not treat a missing `"calm"`
key as 0. -/
theorem C4_missing_calm_counterexample :
    arcsOf (drawRose noCalmData (100, 80)) =
      [Prim.arc none none (some (-180)) (some 180) 100 80,
       Prim.arc none none (some (-180)) (some 180) 100 80]
    ∧ arcsOf (drawRose (noCalmData ++ [("calm", Val.num 0)]) (100, 80)) =
      [Prim.arc (some 0) (some 3) (some (-180)) (some 180) 100 80,
       Prim.arc (some 3) (some 15) (some (-180)) (some 180) 100 80]
    ∧ arcsOf (drawRose noCalmData (100, 80))
        ≠ arcsOf (drawRose (noCalmData ++ [("calm", Val.num 0)]) (100, 80)) := by
  have h1 : arcsOf (drawRose noCalmData (100, 80)) =
      [Prim.arc none none (some (-180)) (some 180) 100 80,
       Prim.arc none none (some (-180)) (some 180) 100 80] := by
    simp only [arcsOf_drawRose]
    simp only [noCalmData, List.cons_append, List.nil_append, lookupData, jsNumOf,
      drawRoseArms, drawChunks, drawChunk, jsAdd, getAngles, getAnglesLoop, getDirections,
      objSet, lookupAngles, degreesInCircle, isArc, List.filter_cons, List.filter_nil,
      String.reduceEq, ite_true, ite_false, if_true, if_false]
    norm_num
  have h2 : arcsOf (drawRose (noCalmData ++ [("calm", Val.num 0)]) (100, 80)) =
      [Prim.arc (some 0) (some 3) (some (-180)) (some 180) 100 80,
       Prim.arc (some 3) (some 15) (some (-180)) (some 180) 100 80] := by
    simp only [arcsOf_drawRose]
    simp only [noCalmData, List.cons_append, List.nil_append, lookupData, jsNumOf,
      drawRoseArms, drawChunks, drawChunk, jsAdd, getAngles, getAnglesLoop, getDirections,
      objSet, lookupAngles, degreesInCircle, isArc, List.filter_cons, List.filter_nil,
      String.reduceEq, ite_true, ite_false, if_true, if_false]
    norm_num
  refine ⟨h1, h2, ?_⟩
  rw [h1, h2]
  simp

/-- C4 (amended): a missing `"calm"` key is treated as 0 by the domain
computation: for every dataset lacking the `"calm"` key, `domain` is
exactly what it is on the same dataset extended with `"calm": 0`.  (The
frequency-rose draw, by contrast, reads `data["calm"]` directly and gets
`undefined`, not 0 — see the counterexample.) -/
theorem C4_missing_calm_domain (data : Data) (hnc : ∀ p ∈ data, p.1 ≠ "calm") :
    domain data = domain (data ++ [("calm", Val.num 0)]) := by
  rw [domain, domain, maxLength, maxLength, maxLengthLoop_append_calm0 data 0 0 hnc le_rfl]

theorem C4_missing_calm_domain_witness :
    (∀ p ∈ noCalmData, p.1 ≠ "calm") ∧
      domain noCalmData = domain (noCalmData ++ [("calm", Val.num 0)]) :=
  ⟨by decide, C4_missing_calm_domain noCalmData (by decide)⟩

lemma drawChunks_some (dir : String) (center : ℚ × ℚ) (angles : List (String × ℚ × ℚ)) :
    ∀ (bins : List (String × ℚ)) (o : ℚ),
      drawChunks dir bins (some o) center angles = specStackedArcs o dir angles center bins := by
  intro bins
  induction bins with
  | nil => intro o; rfl
  | cons b rest ih =>
    intro o
    obtain ⟨bin, freq⟩ := b
    simp only [drawChunks, drawChunk, jsAdd, specStackedArcs, ih]

lemma filter_isArc_specStackedArcs (dir : String) (center : ℚ × ℚ)
    (angles : List (String × ℚ × ℚ)) : ∀ (bins : List (String × ℚ)) (o : ℚ),
    (specStackedArcs o dir angles center bins).filter isArc =
      specStackedArcs o dir angles center bins := by
  intro bins
  induction bins with
  | nil => intro o; rfl
  | cons b rest ih =>
    intro o
    obtain ⟨bin, freq⟩ := b
    simp only [specStackedArcs, List.filter_cons, isArc, ite_true, if_true, ih]

lemma filter_isArc_drawRoseArms (center : ℚ × ℚ) (angles : List (String × ℚ × ℚ)) (c : ℚ) :
    ∀ data : Data, (drawRoseArms (some c) center angles data).filter isArc =
      specFreqArcs c angles center data := by
  intro data
  induction data with
  | nil => rfl
  | cons p rest ih =>
    obtain ⟨dir, v⟩ := p
    by_cases hdir : dir = "calm"
    · simp only [drawRoseArms, specFreqArcs, if_pos hdir, List.nil_append, ih]
    · simp only [drawRoseArms, specFreqArcs, if_neg hdir, List.filter_append, ih,
        drawChunks_some, filter_isArc_specStackedArcs]

/-- C5: in the frequency rose, for every dataset whose `"calm"` key holds
the scalar `c`, the emitted arc sectors are exactly those the spec
describes: per non-calm direction, in bin-iteration order, one arc per
bin with inner radius = offset and outer radius = offset + bin value,
the offset starting at `c` and advancing by each bin value. -/
theorem C5_frequency_rose_arcs (data : Data) (center : ℚ × ℚ) (c : ℚ)
    (hc : lookupData data "calm" = some (Val.num c)) :
    arcsOf (drawRose data center) =
      specFreqArcs c (getAngles (getDirections data)) center data := by
  rw [arcsOf_drawRose, hc]
  simp only [jsNumOf]
  exact filter_isArc_drawRoseArms center (getAngles (getDirections data)) c data

theorem C5_frequency_rose_arcs_witness :
    lookupData sampleFreqData "calm" = some (Val.num 8)
    ∧ arcsOf (drawRose sampleFreqData (100, 80)) =
        specFreqArcs 8 (getAngles (getDirections sampleFreqData)) (100, 80) sampleFreqData
    ∧ (arcsOf (drawRose sampleFreqData (100, 80))).take 4 =
        [Prim.arc (some 8) (some 11) (some (-45)) (some 45) 100 80,
         Prim.arc (some 11) (some 23) (some (-45)) (some 45) 100 80,
         Prim.arc (some 23) (some 23) (some (-45)) (some 45) 100 80,
         Prim.arc (some 23) (some 23) (some (-45)) (some 45) 100 80] := by
  refine ⟨by decide, C5_frequency_rose_arcs sampleFreqData (100, 80) 8 (by decide), ?_⟩
  simp only [arcsOf_drawRose]
  simp only [sampleFreqData, lookupData, jsNumOf, drawRoseArms, drawChunks, drawChunk, jsAdd,
    getAngles, getAnglesLoop, getDirections, objSet, lookupAngles, degreesInCircle, isArc,
    List.filter_cons, List.filter_nil, List.cons_append, List.nil_append, String.reduceEq,
    ite_true, ite_false, if_true, if_false]
  norm_num

lemma filter_isRect_radiiCircles (center : ℚ × ℚ) : ∀ rs : List ℚ,
    (bomStyle.radiiCirclePrims center rs).filter isRect = [] := by
  intro rs
  induction rs with
  | nil => rfl
  | cons r rest ih => simp [bomStyle.radiiCirclePrims, isRect, List.filter_cons, ih]

lemma rectsOf_bomDrawRose (data : Data) (center : ℚ × ℚ) :
    rectsOf (bomStyle.drawRose data center) =
      List.filter isRect (bomStyle.drawBomArms
        (jsAdd (some center.2) (jsNumOf (lookupData data "calm"))) center data) := by
  rw [bomStyle.drawRose, rectsOf, List.filter_append, List.filter_append,
    bomStyle.drawRadiiCircles, filter_isRect_radiiCircles, bomStyle.drawCalmCircle]
  simp [isRect, List.filter_cons]

lemma drawRects_some (dir : String) (center : ℚ × ℚ) : ∀ (bins : List (String × ℚ)) (y : ℚ),
    bomStyle.drawRects dir bins (some y) center = specTelescopeRects y dir center bins := by
  intro bins
  induction bins with
  | nil => intro y; rfl
  | cons b rest ih =>
    intro y
    obtain ⟨key, freq⟩ := b
    simp only [bomStyle.drawRects, jsAdd, specTelescopeRects, ih]

lemma filter_isRect_specTelescopeRects (dir : String) (center : ℚ × ℚ) :
    ∀ (bins : List (String × ℚ)) (y : ℚ),
    (specTelescopeRects y dir center bins).filter isRect = specTelescopeRects y dir center bins := by
  intro bins
  induction bins with
  | nil => intro y; rfl
  | cons b rest ih =>
    intro y
    obtain ⟨key, freq⟩ := b
    simp only [specTelescopeRects, List.filter_cons, isRect, ite_true, if_true, ih]

lemma filter_isRect_drawBomArms (center : ℚ × ℚ) (y : ℚ) :
    ∀ data : Data, (bomStyle.drawBomArms (some y) center data).filter isRect =
      specTelescopeArms y center data := by
  intro data
  induction data with
  | nil => rfl
  | cons p rest ih =>
    obtain ⟨dir, v⟩ := p
    by_cases hdir : dir = "calm"
    · simp only [bomStyle.drawBomArms, specTelescopeArms, if_pos hdir, List.nil_append, ih]
    · simp only [bomStyle.drawBomArms, specTelescopeArms, if_neg hdir, List.filter_append, ih,
        drawRects_some, filter_isRect_specTelescopeRects]

/-- C6: in the telescope (BOM-style) rose, for every dataset whose
`"calm"` key holds the scalar `c`, the emitted rectangles are exactly
those the spec describes: per non-calm direction, in bin order, one
rectangle with x = center.x - width/2, y = the running offset starting at
center.y + c, width = the bin's statically configured width, height = the
bin's frequency, the offset advancing by each frequency; each carries its
direction's fixed rotation about the center. -/
theorem C6_telescope_rects (data : Data) (center : ℚ × ℚ) (c : ℚ)
    (hc : lookupData data "calm" = some (Val.num c)) :
    rectsOf (bomStyle.drawRose data center) = specTelescopeArms (center.2 + c) center data := by
  rw [rectsOf_bomDrawRose, hc]
  simp only [jsNumOf, jsAdd]
  exact filter_isRect_drawBomArms center (center.2 + c) data

theorem C6_telescope_rects_witness :
    lookupData sampleBomData "calm" = some (Val.num 8)
    ∧ rectsOf (bomStyle.drawRose sampleBomData (100, 80)) =
        specTelescopeArms (80 + 8) (100, 80) sampleBomData
    ∧ rectsOf (bomStyle.drawRose sampleBomData (100, 80)) =
        [Prim.rect (some 98) (some 88) (some 4) (some 10) (some 180) 100 80,
         Prim.rect (some 96) (some 98) (some 8) (some 10) (some 180) 100 80,
         Prim.rect (some 94) (some 108) (some 12) (some 10) (some 180) 100 80,
         Prim.rect (some 92) (some 118) (some 16) (some 10) (some 180) 100 80] := by
  refine ⟨by decide, C6_telescope_rects sampleBomData (100, 80) 8 (by decide), ?_⟩
  rw [rectsOf_bomDrawRose]
  simp only [sampleBomData, lookupData, jsNumOf, jsAdd, bomStyle.drawBomArms, bomStyle.drawRects,
    bomStyle.configWidth, bomStyle.config, bomStyle.rotationOf, bomStyle.rotations, lookupNum,
    jsSub, jsHalf, valBins, isRect, List.filter_cons, List.filter_nil, List.cons_append,
    List.nil_append, String.reduceEq, ite_true, ite_false, if_true, if_false]
  norm_num

lemma objSet_fresh : ∀ (angs : List (String × ℚ × ℚ)) (key : String) (v : ℚ × ℚ),
    (∀ p ∈ angs, p.1 ≠ key) → objSet angs key v = angs ++ [(key, v)] := by
  intro angs
  induction angs with
  | nil => intro key v _; rfl
  | cons p rest ih =>
    intro key v h
    obtain ⟨k, w⟩ := p
    have hk : k ≠ key := h (k, w) (List.mem_cons_self _ _)
    simp only [objSet, if_neg hk, List.cons_append]
    rw [ih key v fun q hq => h q (List.mem_cons_of_mem _ hq)]

lemma getAnglesLoop_eq_ideal (s : ℚ) : ∀ (dirs : List String) (f : ℚ)
    (angs : List (String × ℚ × ℚ)), dirs.Nodup → (∀ p ∈ angs, p.1 ∉ dirs) →
    getAnglesLoop s dirs f angs = angs ++ idealAngles s dirs f := by
  intro dirs
  induction dirs with
  | nil => intro f angs _ _; simp [getAnglesLoop, idealAngles]
  | cons d rest ih =>
    intro f angs hnd hfresh
    have hdrest : d ∉ rest := (List.nodup_cons.mp hnd).1
    rw [getAnglesLoop, objSet_fresh angs d _
      (fun p hp he => hfresh p hp (he ▸ List.mem_cons_self d rest))]
    rw [ih (f + 1) (angs ++ [(d, _)]) (List.nodup_cons.mp hnd).2 ?_]
    · simp [idealAngles, List.append_assoc]
    · intro p hp
      rcases List.mem_append.mp hp with h | h
      · exact fun hmem => hfresh p h (List.mem_cons_of_mem _ hmem)
      · have : p = (d, (degreesInCircle / s * f, degreesInCircle / s * (f + 1))) :=
          List.mem_singleton.mp h
        rw [this]
        exact hdrest

lemma getAngles_eq_ideal (dirs : List String) (h : dirs.Nodup) :
    getAngles dirs = idealAngles (dirs.length : ℚ) dirs (-(1/2)) := by
  rw [getAngles, getAnglesLoop_eq_ideal _ dirs _ [] h (by simp), List.nil_append]

lemma idealAngles_length (s : ℚ) : ∀ (dirs : List String) (f : ℚ),
    (idealAngles s dirs f).length = dirs.length := by
  intro dirs
  induction dirs with
  | nil => intro f; rfl
  | cons d rest ih => intro f; simp [idealAngles, ih]

lemma idealAngles_get? (s : ℚ) : ∀ (dirs : List String) (f : ℚ) (i : ℕ), i < dirs.length →
    (idealAngles s dirs f).get? i = some (dirs.getD i "",
      degreesInCircle / s * (f + (i : ℚ)), degreesInCircle / s * (f + (i : ℚ) + 1)) := by
  intro dirs
  induction dirs with
  | nil => intro f i hi; simp at hi
  | cons d rest ih =>
    intro f i hi
    cases i with
    | zero => simp [idealAngles, List.getD]
    | succ j =>
      have hj : j < rest.length := by simpa using hi
      have hcast : ((j + 1 : ℕ) : ℚ) = (j : ℚ) + 1 := by push_cast; ring
      simp only [idealAngles, List.get?, List.getD_cons_succ, hcast]
      rw [show degreesInCircle / s * (f + ((j : ℚ) + 1)) =
        degreesInCircle / s * (f + 1 + (j : ℚ)) by ring]
      rw [show degreesInCircle / s * (f + ((j : ℚ) + 1) + 1) =
        degreesInCircle / s * (f + 1 + (j : ℚ) + 1) by ring]
      exact ih (f + 1) j hj

lemma lookupAngles_ideal (s : ℚ) : ∀ (dirs : List String) (f : ℚ) (i : ℕ), i < dirs.length →
    dirs.Nodup → lookupAngles (idealAngles s dirs f) (dirs.getD i "") =
      some (degreesInCircle / s * (f + (i : ℚ)), degreesInCircle / s * (f + (i : ℚ) + 1)) := by
  intro dirs
  induction dirs with
  | nil => intro f i hi; simp at hi
  | cons d rest ih =>
    intro f i hi hnd
    cases i with
    | zero => simp [idealAngles, lookupAngles, List.getD]
    | succ j =>
      have hj : j < rest.length := by simpa using hi
      have hmem : rest.getD j "" ∈ rest := by
        rw [List.getD_eq_getElem?_getD, List.getElem?_eq_getElem hj]
        exact List.getElem_mem hj
      have hdne : d ≠ rest.getD j "" := by
        intro he
        exact (List.nodup_cons.mp hnd).1 (he ▸ hmem)
      have hcast : ((j + 1 : ℕ) : ℚ) = (j : ℚ) + 1 := by push_cast; ring
      simp only [idealAngles, lookupAngles, List.getD_cons_succ, if_neg hdne, hcast]
      rw [show degreesInCircle / s * (f + ((j : ℚ) + 1)) =
        degreesInCircle / s * (f + 1 + (j : ℚ)) by ring]
      rw [show degreesInCircle / s * (f + ((j : ℚ) + 1) + 1) =
        degreesInCircle / s * (f + 1 + (j : ℚ) + 1) by ring]
      exact ih (f + 1) j hj (List.nodup_cons.mp hnd).2

lemma filter_isArc_speedCircles (center : ℚ × ℚ) : ∀ rs : List ℚ,
    (meanDirectional.speedCirclePrims center rs).filter isArc = [] := by
  intro rs
  induction rs with
  | nil => rfl
  | cons r rest ih => simp [meanDirectional.speedCirclePrims, isArc, List.filter_cons, ih]

lemma drawSlices_eq_map (center : ℚ × ℚ) (angles : List (String × ℚ × ℚ)) :
    ∀ data : Data, meanDirectional.drawSlices center angles data =
      data.map (fun p => meanDirectional.drawSpeedSlice center p.1 (jsNumOf (some p.2)) angles) := by
  intro data
  induction data with
  | nil => rfl
  | cons p rest ih => simp only [meanDirectional.drawSlices, List.map_cons, ih]

lemma filter_isArc_drawSlices (center : ℚ × ℚ) (angles : List (String × ℚ × ℚ)) :
    ∀ data : Data, (meanDirectional.drawSlices center angles data).filter isArc =
      meanDirectional.drawSlices center angles data := by
  intro data
  induction data with
  | nil => rfl
  | cons p rest ih =>
    simp only [meanDirectional.drawSlices, meanDirectional.drawSpeedSlice, List.filter_cons,
      isArc, ite_true, if_true, ih]

lemma arcsOf_meanDrawRose (data : Data) (center : ℚ × ℚ) :
    arcsOf (meanDirectional.drawRose data center) =
      meanDirectional.drawSlices center (getAngles (getDirections data)) data := by
  rw [meanDirectional.drawRose, arcsOf, List.filter_append, meanDirectional.drawSpeedCircles,
    filter_isArc_speedCircles, List.nil_append, filter_isArc_drawSlices]

lemma getDirections_no_calm : ∀ data : Data, (∀ p ∈ data, p.1 ≠ "calm") →
    getDirections data = data.map Prod.fst := by
  intro data
  induction data with
  | nil => intro _; rfl
  | cons p rest ih =>
    intro h
    obtain ⟨k, v⟩ := p
    have hk : k ≠ "calm" := h (k, v) (List.mem_cons_self _ _)
    simp only [getDirections, if_neg hk, List.map_cons]
    rw [ih fun q hq => h q (List.mem_cons_of_mem _ hq)]

/-- C8: in the mean-directional rose, each direction yields exactly one
filled arc sector (the arc count equals the number of directions), and
the arc emitted for the i-th direction has inner radius 0, outer radius
equal to that direction's scalar value, and angular span exactly the
`{start, end}` pair the angle calculator assigns to that direction's
label, namely `(360/N)*(i - 1/2)` to `(360/N)*(i + 1/2)`; the witness
instantiates the claim's example: direction "N" with value 10 yields the
one arc of inner radius 0, outer radius 10 on the slice from -22.5 to
22.5 degrees, centered on 0. -/
theorem C8_mean_directional_slices (data : Data) (center : ℚ × ℚ) (i : ℕ)
    (hi : i < data.length) (hnd : (data.map Prod.fst).Nodup)
    (hnc : ∀ p ∈ data, p.1 ≠ "calm") :
    (arcsOf (meanDirectional.drawRose data center)).length = data.length
    ∧ lookupAngles (getAngles (getDirections data)) (data.get ⟨i, hi⟩).1 =
        some (360 / (data.length : ℚ) * ((i : ℚ) - 1/2),
          360 / (data.length : ℚ) * ((i : ℚ) + 1/2))
    ∧ (arcsOf (meanDirectional.drawRose data center)).get? i =
        some (Prim.arc (some 0) (jsNumOf (some (data.get ⟨i, hi⟩).2))
          (some (360 / (data.length : ℚ) * ((i : ℚ) - 1/2)))
          (some (360 / (data.length : ℚ) * ((i : ℚ) + 1/2))) center.1 center.2) := by
  have hkey : (data.map Prod.fst).getD i "" = (data.get ⟨i, hi⟩).1 := by
    rw [List.getD_eq_getElem?_getD, List.getElem?_eq_getElem (by simpa using hi)]
    simp [List.getElem_map]
  have hlook : lookupAngles (getAngles (getDirections data)) (data.get ⟨i, hi⟩).1 =
      some (360 / (data.length : ℚ) * ((i : ℚ) - 1/2),
        360 / (data.length : ℚ) * ((i : ℚ) + 1/2)) := by
    have h0 : lookupAngles (getAngles (getDirections data)) (data.get ⟨i, hi⟩).1 =
        some (degreesInCircle / ((data.map Prod.fst).length : ℚ) * (-(1/2) + (i : ℚ)),
          degreesInCircle / ((data.map Prod.fst).length : ℚ) * (-(1/2) + (i : ℚ) + 1)) := by
      rw [getDirections_no_calm data hnc, getAngles_eq_ideal _ hnd, ← hkey]
      exact lookupAngles_ideal _ (data.map Prod.fst) (-(1/2)) i (by simpa using hi) hnd
    rw [h0, degreesInCircle, List.length_map]
    rw [show (360 : ℚ) / (data.length : ℚ) * (-(1/2) + (i : ℚ)) =
      360 / (data.length : ℚ) * ((i : ℚ) - 1/2) by ring]
    rw [show (360 : ℚ) / (data.length : ℚ) * (-(1/2) + (i : ℚ) + 1) =
      360 / (data.length : ℚ) * ((i : ℚ) + 1/2) by ring]
  refine ⟨?_, hlook, ?_⟩
  · rw [arcsOf_meanDrawRose, drawSlices_eq_map]
    simp
  · rw [arcsOf_meanDrawRose, drawSlices_eq_map]
    rw [List.get?_map, List.get?_eq_get hi, Option.map_some']
    simp only [meanDirectional.drawSpeedSlice, hlook, Option.map_some']

theorem C8_mean_directional_slices_witness :
    (arcsOf (meanDirectional.drawRose sampleMeanData (100, 80))).length = 8
    ∧ lookupAngles (getAngles (getDirections sampleMeanData)) "N" = some (-(45/2), 45/2)
    ∧ (arcsOf (meanDirectional.drawRose sampleMeanData (100, 80))).get? 0 =
        some (Prim.arc (some 0) (some 10) (some (-(45/2))) (some (45/2)) 100 80) := by
  have h := C8_mean_directional_slices sampleMeanData (100, 80) 0 (by decide) (by decide)
    (by decide)
  refine ⟨h.1, ?_, ?_⟩
  · exact h.2.1.trans (by norm_num [sampleMeanData])
  · rw [h.2.2]
    norm_num [sampleMeanData, List.get, jsNumOf]

lemma ite_gt_eq_max (m a : ℚ) : (if a > m then a else m) = max m a := by
  rcases le_or_lt a m with h | h
  · rw [if_neg (not_lt.mpr h), max_eq_left h]
  · rw [if_pos h, max_eq_right (le_of_lt h)]

lemma maxLengthLoop_no_calm : ∀ (rest : Data) (m calm len : ℚ), (∀ p ∈ rest, p.1 ≠ "calm") →
    maxLengthLoop rest m calm len =
      (rest.map (fun p => binSum (valBins p.2) + calm)).foldl max m := by
  intro rest
  induction rest with
  | nil => intro m calm len _; rfl
  | cons p rest' ih =>
    intro m calm len h
    obtain ⟨dir, v⟩ := p
    have hdir : dir ≠ "calm" := h (dir, v) (List.mem_cons_self _ _)
    simp only [maxLengthLoop, if_neg hdir, ite_gt_eq_max, List.map_cons, List.foldl_cons]
    exact ih _ _ _ fun q hq => h q (List.mem_cons_of_mem _ hq)

lemma foldl_max_eq : ∀ (ts : List ℚ) (a b : ℚ), b ≤ a →
    ts.foldl max a = max a (ts.foldr max b) := by
  intro ts
  induction ts with
  | nil => intro a b h; simp [max_eq_left h]
  | cons t ts' ih =>
    intro a b h
    simp only [List.foldl_cons, List.foldr_cons]
    rw [ih (max a t) b (le_trans h (le_max_left a t)), max_assoc]

lemma le_foldr_max_init : ∀ (ts : List ℚ) (b : ℚ), b ≤ ts.foldr max b := by
  intro ts
  induction ts with
  | nil => intro b; exact le_refl b
  | cons t ts' ih => intro b; exact le_trans (ih b) (le_max_right t _)

lemma mem_le_foldr_max : ∀ (ts : List ℚ) (b t : ℚ), t ∈ ts → t ≤ ts.foldr max b := by
  intro ts
  induction ts with
  | nil => intro b t ht; simp at ht
  | cons s ts' ih =>
    intro b t ht
    rcases List.mem_cons.mp ht with h | h
    · rw [h]; exact le_max_left _ _
    · exact le_trans (ih b t h) (le_max_right _ _)

lemma foldr_max_zeros : ∀ ts : List ℚ, (∀ t ∈ ts, t = 0) → ts.foldr max 0 = 0 := by
  intro ts
  induction ts with
  | nil => intro _; rfl
  | cons t ts' ih =>
    intro h
    simp only [List.foldr_cons]
    rw [h t (List.mem_cons_self _ _), ih fun s hs => h s (List.mem_cons_of_mem _ hs)]
    simp

lemma lookupData_not_mem : ∀ (data : Data) (key : String), (∀ p ∈ data, p.1 ≠ key) →
    lookupData data key = none := by
  intro data
  induction data with
  | nil => intro key _; rfl
  | cons p rest ih =>
    intro key h
    obtain ⟨k, v⟩ := p
    simp only [lookupData, if_neg (h (k, v) (List.mem_cons_self _ _))]
    exact ih key fun q hq => h q (List.mem_cons_of_mem _ hq)

lemma le_maxLengthLoop : ∀ (data : Data) (m calm len : ℚ), m ≤ maxLengthLoop data m calm len := by
  intro data
  induction data with
  | nil => intro m calm len; exact le_refl m
  | cons p rest ih =>
    intro m calm len
    obtain ⟨dir, v⟩ := p
    simp only [maxLengthLoop, ite_gt_eq_max]
    exact le_trans (le_max_left m _) (ih _ _ _)

lemma maxLength_le_domain (data : Data) : maxLength data ≤ domain data := by
  rw [domain]
  exact (div_le_iff (by norm_num : (0:ℚ) < 10)).mp (Int.le_ceil _)

lemma maxLength_calm_first (rest : Data) (c : ℚ) (hnc : ∀ p ∈ rest, p.1 ≠ "calm") (hc : 0 ≤ c) :
    maxLength (("calm", Val.num c) :: rest) =
      (rest.map (fun p => binSum (valBins p.2) + c)).foldl max c := by
  rw [maxLength]
  simp only [maxLengthLoop, ite_true, if_true, eq_self_iff_true, valAsNum]
  rw [maxLengthLoop_no_calm rest _ c _ hnc]
  congr 1
  rcases eq_or_lt_of_le hc with h | h
  · rw [← h]; norm_num
  · rw [if_pos (by linarith : (0:ℚ) + c > 0)]
    ring

lemma specMax_calm_first (rest : Data) (c : ℚ) (hnc : ∀ p ∈ rest, p.1 ≠ "calm") :
    specMax (("calm", Val.num c) :: rest) =
      (rest.map (fun p => binSum (valBins p.2) + c)).foldr max 0 := by
  have hcalm : specCalm (("calm", Val.num c) :: rest) = c := by
    simp [specCalm, lookupData, valAsNum]
  have hfil : rest.filter (fun p => p.1 ≠ "calm") = rest :=
    List.filter_eq_self.mpr fun a ha => by simpa using hnc a ha
  rw [specMax, specArmTotals, hcalm]
  congr 1
  rw [List.filter_cons]
  rw [show (decide ((("calm", Val.num c) : String × Val).1 ≠ "calm")) = false by simp]
  simp only [Bool.false_eq_true, if_false]
  exact congrArg _ hfil

lemma specMax_no_calm (data : Data) (hnc : ∀ p ∈ data, p.1 ≠ "calm") :
    specMax data = (data.map (fun p => binSum (valBins p.2) + 0)).foldr max 0 := by
  have hcalm : specCalm data = 0 := by
    rw [specCalm, lookupData_not_mem data "calm" hnc]
  have hfil : data.filter (fun p => p.1 ≠ "calm") = data :=
    List.filter_eq_self.mpr fun a ha => by simpa using hnc a ha
  rw [specMax, specArmTotals, hcalm, hfil]

lemma dataNonneg_all_binSum : ∀ data : Data, dataNonneg data = true →
    ∀ p ∈ data, 0 ≤ binSum (valBins p.2) := by
  intro data
  induction data with
  | nil => intro _ p hp; simp at hp
  | cons q rest ih =>
    intro h p hp
    rcases List.mem_cons.mp hp with hh | hh
    · exact hh ▸ dataNonneg_binSum h
    · exact ih (dataNonneg_tail h) p hh

/-- C1 (counterexample): the claimed formula is sensitive to key order.
On `{"N": {"0-10": 15}, "S": {"0-10": 5}, "calm": 8}` — the `"calm"` key
iterated last — the code computes `maxLength = 15` (the `calm` loop
variable is still 0 when each direction is scanned), giving domain 20,
while the spec formula `ceil(max(15+8, 5+8)/10)*10` gives 30. -/
theorem C1_key_order_counterexample :
    domain calmLastData = 20 ∧ specDomain calmLastData = 30
      ∧ domain calmLastData ≠ specDomain calmLastData := by
  have hm : maxLength calmLastData = 15 := by
    simp only [calmLastData, maxLength, maxLengthLoop, binSum, binSumLoop, valBins, valAsNum,
      String.reduceEq, ite_true, ite_false, if_true, if_false]
    norm_num
  have h1 : domain calmLastData = 20 := by
    rw [domain, hm, show (15 : ℚ) / 10 = 3 / 2 by norm_num,
      show ⌈(3 : ℚ) / 2⌉ = 2 from by norm_num [Int.ceil_eq_iff]]
    norm_num
  have hsm : specMax calmLastData = 23 := by
    simp only [calmLastData, specMax, specArmTotals, specCalm, lookupData, valAsNum, binSum,
      binSumLoop, valBins, List.filter_cons, List.filter_nil, List.map_cons, List.map_nil,
      List.foldr_cons, List.foldr_nil, String.reduceEq, ite_true, ite_false, if_true, if_false,
      decide_not]
    norm_num [binSumLoop, max_def]
  have h2 : specDomain calmLastData = 30 := by
    rw [specDomain, hsm, show (23 : ℚ) / 10 = 23 / 10 by norm_num,
      show ⌈(23 : ℚ) / 10⌉ = 3 from by norm_num [Int.ceil_eq_iff]]
    norm_num
  exact ⟨h1, h2, by rw [h1, h2]; norm_num⟩

set_option maxHeartbeats 1000000 in
/-- C1 (amended): the spec formula for the domain holds when the `"calm"`
key, if present, is the first key of the dataset (as in the repository's
sample datasets) — not for arbitrary key orders: for every dataset whose
non-negative direction entries follow an optional leading `"calm"` scalar
`c ≥ 0`, with at least one direction, `domain = ceil(max/10)*10` where
`max` is the maximum over directions of (bin sum + calm); the result is a
non-negative multiple of 10, is ≥ every per-direction total, and is 0
when the calm value is 0 and all bins are zero. -/
theorem C1_domain_calm_first (rest : Data) (c : ℚ) (data : Data)
    (hshape : data = ("calm", Val.num c) :: rest ∨ (data = rest ∧ c = 0))
    (hnc : ∀ p ∈ rest, p.1 ≠ "calm")
    (hne : rest ≠ [])
    (hnneg : dataNonneg rest = true)
    (hc : 0 ≤ c) :
    domain data = specDomain data
    ∧ (∃ k : ℤ, domain data = 10 * k)
    ∧ 0 ≤ domain data
    ∧ (∀ p ∈ rest, binSum (valBins p.2) + c ≤ domain data)
    ∧ ((c = 0 ∧ ∀ p ∈ rest, binSum (valBins p.2) = 0) → domain data = 0) := by
  have hbins : ∀ p ∈ rest, 0 ≤ binSum (valBins p.2) := dataNonneg_all_binSum rest hnneg
  have hmain : maxLength data = specMax data := by
    rcases hshape with h | ⟨h, hc0⟩
    · rw [h, maxLength_calm_first rest c hnc hc, specMax_calm_first rest c hnc]
      rw [foldl_max_eq _ c 0 hc]
      obtain ⟨p0, rest', hrest⟩ : ∃ p0 rest', rest = p0 :: rest' := by
        cases rest with
        | nil => exact absurd rfl hne
        | cons p0 rest' => exact ⟨p0, rest', rfl⟩
      have ht0 : binSum (valBins p0.2) + c ∈
          rest.map (fun p => binSum (valBins p.2) + c) :=
        List.mem_map_of_mem _ (hrest ▸ List.mem_cons_self _ _)
      have hc_le : c ≤ (rest.map (fun p => binSum (valBins p.2) + c)).foldr max 0 := by
        have h0 : 0 ≤ binSum (valBins p0.2) :=
          hbins p0 (hrest ▸ List.mem_cons_self _ _)
        exact le_trans (by linarith) (mem_le_foldr_max _ 0 _ ht0)
      exact max_eq_right hc_le
    · rw [h, maxLength, maxLengthLoop_no_calm rest 0 0 0 hnc, specMax_no_calm rest hnc]
      rw [foldl_max_eq _ 0 0 le_rfl]
      exact max_eq_right (le_foldr_max_init _ 0)
  have hnn : 0 ≤ maxLength data := le_maxLengthLoop data 0 0 0
  refine ⟨by rw [domain, specDomain, hmain], ⟨⌈maxLength data / 10⌉, by rw [domain]; ring⟩,
    ?_, ?_, ?_⟩
  · have h2 : (0 : ℤ) ≤ ⌈maxLength data / 10⌉ := Int.ceil_nonneg (by positivity)
    have h3 : (0 : ℚ) ≤ (⌈maxLength data / 10⌉ : ℚ) := by exact_mod_cast h2
    rw [domain]
    linarith
  · intro p hp
    have h1 : binSum (valBins p.2) + c ≤ maxLength data := by
      rcases hshape with h | ⟨h, hc0⟩
      · rw [h]
        rw [maxLength_calm_first rest c hnc hc]
        rw [foldl_max_eq _ c 0 hc]
        have hx := List.mem_map_of_mem (fun q => binSum (valBins q.2) + c) hp
        have hy := mem_le_foldr_max (rest.map (fun q => binSum (valBins q.2) + c)) 0 _ hx
        exact le_trans hy (le_max_right _ _)
      · rw [hc0, h]
        rw [maxLength]
        rw [maxLengthLoop_no_calm rest 0 0 0 hnc]
        rw [foldl_max_eq _ 0 0 le_rfl]
        have hx := List.mem_map_of_mem (fun q => binSum (valBins q.2) + 0) hp
        have hy := mem_le_foldr_max (rest.map (fun q => binSum (valBins q.2) + 0)) 0 _ hx
        exact le_trans hy (le_max_right _ _)
    exact le_trans h1 (maxLength_le_domain data)
  · rintro ⟨hc0, hz⟩
    have hzero : maxLength data = 0 := by
      rw [hmain]
      rcases hshape with h | ⟨h, _⟩
      · rw [h, specMax_calm_first rest c hnc]
        exact foldr_max_zeros _ fun t ht => by
          obtain ⟨p, hp, hpt⟩ := List.mem_map.mp ht
          rw [← hpt, hz p hp, hc0, add_zero]
      · rw [h, specMax_no_calm rest hnc]
        exact foldr_max_zeros _ fun t ht => by
          obtain ⟨p, hp, hpt⟩ := List.mem_map.mp ht
          rw [← hpt, hz p hp, add_zero]
    rw [domain, hzero]
    norm_num

theorem C1_domain_calm_first_witness :
    domain sampleFreqData = specDomain sampleFreqData
    ∧ (∃ k : ℤ, domain sampleFreqData = 10 * k)
    ∧ 0 ≤ domain sampleFreqData
    ∧ (∀ p ∈ sampleFreqData.tail, binSum (valBins p.2) + 8 ≤ domain sampleFreqData)
    ∧ (((8 : ℚ) = 0 ∧ ∀ p ∈ sampleFreqData.tail, binSum (valBins p.2) = 0) →
        domain sampleFreqData = 0) :=
  C1_domain_calm_first sampleFreqData.tail 8 sampleFreqData (Or.inl rfl) (by decide)
    (by decide) (by decide) (by norm_num)

lemma idealAngles_mem_width (s : ℚ) : ∀ (dirs : List String) (f : ℚ) (sp : String × ℚ × ℚ),
    sp ∈ idealAngles s dirs f → sp.2.2 - sp.2.1 = degreesInCircle / s := by
  intro dirs
  induction dirs with
  | nil => intro f sp h; simp [idealAngles] at h
  | cons d rest ih =>
    intro f sp h
    rcases List.mem_cons.mp h with hh | hh
    · rw [hh]
      ring
    · exact ih (f + 1) sp hh

lemma idealAngles_width_sum (s : ℚ) : ∀ (dirs : List String) (f : ℚ),
    ((idealAngles s dirs f).map (fun sp => sp.2.2 - sp.2.1)).sum =
      (dirs.length : ℚ) * (degreesInCircle / s) := by
  intro dirs
  induction dirs with
  | nil => intro f; simp [idealAngles]
  | cons d rest ih =>
    intro f
    simp only [idealAngles, List.map_cons, List.sum_cons, ih, List.length_cons]
    push_cast
    ring

lemma getAngles_length (dirs : List String) (hnd : dirs.Nodup) :
    (getAngles dirs).length = dirs.length := by
  rw [getAngles_eq_ideal dirs hnd, idealAngles_length]

lemma getAngles_get?_eq (dirs : List String) (hnd : dirs.Nodup) (i : ℕ) (hi : i < dirs.length) :
    (getAngles dirs).get? i = some (dirs.getD i "",
      360 / (dirs.length : ℚ) * ((i : ℚ) - 1/2), 360 / (dirs.length : ℚ) * ((i : ℚ) + 1/2)) := by
  rw [getAngles_eq_ideal dirs hnd, idealAngles_get? _ dirs _ i hi]
  rw [show degreesInCircle / (dirs.length : ℚ) * (-(1/2) + (i : ℚ)) =
    360 / (dirs.length : ℚ) * ((i : ℚ) - 1/2) from by rw [degreesInCircle]; ring]
  rw [show degreesInCircle / (dirs.length : ℚ) * (-(1/2) + (i : ℚ) + 1) =
    360 / (dirs.length : ℚ) * ((i : ℚ) + 1/2) from by rw [degreesInCircle]; ring]

lemma slice_cond_iff (N : ℕ) (hN : 0 < N) (x : ℚ) (i : ℕ) (k : ℤ) :
    (360 / (N : ℚ) * ((i : ℚ) - 1/2) ≤ x + 360 * (k : ℚ)
      ∧ x + 360 * (k : ℚ) < 360 / (N : ℚ) * ((i : ℚ) + 1/2))
    ↔ ((i : ℤ) - (N : ℤ) * k = ⌊x * (N : ℚ) / 360 + 1/2⌋) := by
  have hNq : (0 : ℚ) < (N : ℚ) := by exact_mod_cast hN
  have h1 : (360 / (N : ℚ) * ((i : ℚ) - 1/2) ≤ x + 360 * (k : ℚ))
      ↔ ((i : ℚ) - (N : ℚ) * (k : ℚ) ≤ x * (N : ℚ) / 360 + 1/2) := by
    rw [div_mul_eq_mul_div, div_le_iff hNq]
    constructor <;> intro hh <;> nlinarith [hh]
  have h2 : (x + 360 * (k : ℚ) < 360 / (N : ℚ) * ((i : ℚ) + 1/2))
      ↔ (x * (N : ℚ) / 360 + 1/2 < (i : ℚ) - (N : ℚ) * (k : ℚ) + 1) := by
    rw [div_mul_eq_mul_div, lt_div_iff hNq]
    constructor <;> intro hh <;> nlinarith [hh]
  rw [h1, h2, eq_comm, Int.floor_eq_iff]
  push_cast
  tauto

lemma unique_slice (N : ℕ) (hN : 0 < N) (x : ℚ) :
    ∃! i : ℕ, i < N ∧ ∃ k : ℤ, 360 / (N : ℚ) * ((i : ℚ) - 1/2) ≤ x + 360 * (k : ℚ)
      ∧ x + 360 * (k : ℚ) < 360 / (N : ℚ) * ((i : ℚ) + 1/2) := by
  have hNz : (N : ℤ) ≠ 0 := by exact_mod_cast hN.ne'
  have hNzpos : (0 : ℤ) < (N : ℤ) := by exact_mod_cast hN
  set M := ⌊x * (N : ℚ) / 360 + 1/2⌋ with hM
  have hmod_nonneg : 0 ≤ M % (N : ℤ) := Int.emod_nonneg M hNz
  have hmod_lt : M % (N : ℤ) < (N : ℤ) := Int.emod_lt_of_pos M hNzpos
  have hcast : ((M % (N : ℤ)).toNat : ℤ) = M % (N : ℤ) := Int.toNat_of_nonneg hmod_nonneg
  refine ⟨(M % (N : ℤ)).toNat, ⟨by omega, ⟨-(M / (N : ℤ)), ?_⟩⟩, ?_⟩
  · rw [slice_cond_iff N hN x _ _, hcast, ← hM]
    linear_combination Int.emod_add_ediv M (N : ℤ)
  · rintro j ⟨hj, k, hk⟩
    rw [slice_cond_iff N hN x j k, ← hM] at hk
    have h2 : (j : ℤ) % (N : ℤ) = (j : ℤ) :=
      Int.emod_eq_of_lt (by positivity) (by exact_mod_cast hj)
    have h3 : M % (N : ℤ) = (j : ℤ) := by
      rw [← hk, sub_eq_add_neg, ← mul_neg, Int.add_mul_emod_self_left, h2]
    omega

/-- C2: for every non-empty list of distinct direction labels, `getAngles`
assigns slice i (0-based, in input order) the span from `(360/N)*(i-1/2)`
to `(360/N)*(i+1/2)`: the N spans are equal (width 360/N), contiguous
(each end is the next start), sum to exactly 360, slice 0 is centered on
0 degrees, and, taken modulo 360, they partition [-180, 180): every such
angle lies, after adding a unique multiple of 360, in exactly one span. -/
theorem C2_angle_partition (dirs : List String) (hnd : dirs.Nodup) (hN : 1 ≤ dirs.length) :
    (getAngles dirs).length = dirs.length
    ∧ (∀ i : ℕ, i < dirs.length → (getAngles dirs).get? i =
        some (dirs.getD i "", 360 / (dirs.length : ℚ) * ((i : ℚ) - 1/2),
          360 / (dirs.length : ℚ) * ((i : ℚ) + 1/2)))
    ∧ (∀ sp ∈ getAngles dirs, sp.2.2 - sp.2.1 = 360 / (dirs.length : ℚ))
    ∧ (∀ i : ℕ, ∀ sp sp' : String × ℚ × ℚ, (getAngles dirs).get? i = some sp →
        (getAngles dirs).get? (i + 1) = some sp' → sp.2.2 = sp'.2.1)
    ∧ ((getAngles dirs).map (fun sp => sp.2.2 - sp.2.1)).sum = 360
    ∧ (∀ sp : String × ℚ × ℚ, (getAngles dirs).get? 0 = some sp → sp.2.1 + sp.2.2 = 0)
    ∧ (∀ x : ℚ, -180 ≤ x → x < 180 → ∃! i : ℕ, ∃ sp : String × ℚ × ℚ,
        (getAngles dirs).get? i = some sp ∧ ∃ k : ℤ,
          sp.2.1 ≤ x + 360 * (k : ℚ) ∧ x + 360 * (k : ℚ) < sp.2.2) := by
  have hlen : (getAngles dirs).length = dirs.length := getAngles_length dirs hnd
  have hNq : (dirs.length : ℚ) ≠ 0 := Nat.cast_ne_zero.mpr (by omega)
  have hint : ∀ i : ℕ, ∀ sp : String × ℚ × ℚ, (getAngles dirs).get? i = some sp →
      i < dirs.length ∧ sp = (dirs.getD i "",
        360 / (dirs.length : ℚ) * ((i : ℚ) - 1/2),
        360 / (dirs.length : ℚ) * ((i : ℚ) + 1/2)) := by
    intro i sp hget
    have hi : i < dirs.length := by
      by_contra hge
      rw [List.get?_eq_none.mpr (by omega)] at hget
      exact Option.noConfusion hget
    refine ⟨hi, ?_⟩
    rw [getAngles_get?_eq dirs hnd i hi] at hget
    exact (Option.some.inj hget).symm
  refine ⟨hlen, getAngles_get?_eq dirs hnd, ?_, ?_, ?_, ?_, ?_⟩
  · intro sp hsp
    rw [getAngles_eq_ideal dirs hnd] at hsp
    rw [idealAngles_mem_width _ dirs _ sp hsp, degreesInCircle]
  · intro i sp sp' h1 h2
    obtain ⟨hi, rfl⟩ := hint i sp h1
    obtain ⟨hi', rfl⟩ := hint (i + 1) sp' h2
    push_cast
    ring
  · rw [getAngles_eq_ideal dirs hnd, idealAngles_width_sum, degreesInCircle]
    field_simp
  · intro sp h
    obtain ⟨_, rfl⟩ := hint 0 sp h
    push_cast
    ring
  · intro x _ _
    refine (existsUnique_congr fun i => ?_).mpr (unique_slice dirs.length (by omega) x)
    constructor
    · rintro ⟨sp, hget, k, hk1, hk2⟩
      obtain ⟨hi, rfl⟩ := hint i sp hget
      exact ⟨hi, k, hk1, hk2⟩
    · rintro ⟨hi, k, hk1, hk2⟩
      exact ⟨_, getAngles_get?_eq dirs hnd i hi, k, hk1, hk2⟩

theorem C2_angle_partition_witness :
    (getAngles ["N", "E", "S", "W"]).length = (["N", "E", "S", "W"] : List String).length
    ∧ (∀ i : ℕ, i < (["N", "E", "S", "W"] : List String).length →
        (getAngles ["N", "E", "S", "W"]).get? i =
        some ((["N", "E", "S", "W"] : List String).getD i "",
          360 / ((["N", "E", "S", "W"] : List String).length : ℚ) * ((i : ℚ) - 1/2),
          360 / ((["N", "E", "S", "W"] : List String).length : ℚ) * ((i : ℚ) + 1/2)))
    ∧ (∀ sp ∈ getAngles ["N", "E", "S", "W"],
        sp.2.2 - sp.2.1 = 360 / ((["N", "E", "S", "W"] : List String).length : ℚ))
    ∧ (∀ i : ℕ, ∀ sp sp' : String × ℚ × ℚ,
        (getAngles ["N", "E", "S", "W"]).get? i = some sp →
        (getAngles ["N", "E", "S", "W"]).get? (i + 1) = some sp' → sp.2.2 = sp'.2.1)
    ∧ ((getAngles ["N", "E", "S", "W"]).map (fun sp => sp.2.2 - sp.2.1)).sum = 360
    ∧ (∀ sp : String × ℚ × ℚ,
        (getAngles ["N", "E", "S", "W"]).get? 0 = some sp → sp.2.1 + sp.2.2 = 0)
    ∧ (∀ x : ℚ, -180 ≤ x → x < 180 → ∃! i : ℕ, ∃ sp : String × ℚ × ℚ,
        (getAngles ["N", "E", "S", "W"]).get? i = some sp ∧ ∃ k : ℤ,
          sp.2.1 ≤ x + 360 * (k : ℚ) ∧ x + 360 * (k : ℚ) < sp.2.2) :=
  C2_angle_partition ["N", "E", "S", "W"] (by decide) (by decide)
